import Mathlib

/-!
Verification of the order-execution and portfolio-accounting core of a
stock-trading simulator (Rust, `src/main.rs`).

Modelling choices:
* `f32` cash/prices are modelled as `ℚ`;
* `i32` quantities are modelled as `ℤ` (no claim here probes 32-bit overflow);
* `HashMap<String, i32>` is modelled as an association list with unique keys,
  `hmLookup` being first-match lookup; `entry(k).or_insert(0)` is modelled by
  `hmEnsure` (insert a zero entry when the key is absent), in-place `+=` on the
  entry by `hmAdd` / `hmSet`.
-/

namespace StockSim

/-- Rust `struct MarketData { symbol: String, price: f32 }`. -/
structure MarketData where
  symbol : String
  price : ℚ
deriving DecidableEq

/-- Rust `enum OrderType { Market, Limit(f32) }`. -/
inductive OrderType where
  | market : OrderType
  | limit : ℚ → OrderType
deriving DecidableEq

/-- Rust `struct Order { symbol: String, quantity: i32, order_type: OrderType }`. -/
structure Order where
  symbol : String
  quantity : ℤ
  order_type : OrderType
deriving DecidableEq

/-- The `HashMap<String, i32>` of holdings, as an association list. -/
abbrev Holdings := List (String × ℤ)

/-- Rust `struct Portfolio { cash: f32, holdings: HashMap<String, i32> }`. -/
structure Portfolio where
  cash : ℚ
  holdings : Holdings
deriving DecidableEq

/-- Rust `const INITIAL_CASH: f32 = 10000.0`. -/
def INITIAL_CASH : ℚ := 10000

/-- Rust `HashMap::get`: first-match lookup by symbol. -/
def hmLookup : Holdings → String → Option ℤ
  | [], _ => none
  | (k, v) :: rest, s => if k = s then some v else hmLookup rest s

/-- The quantity held for a symbol, an absent symbol counting as 0
(`holdings.get(symbol).unwrap_or(0)` view of the map). -/
def effQty (h : Holdings) (s : String) : ℤ :=
  (hmLookup h s).getD 0

/-- Rust `*holdings.entry(s).or_insert(0) += q` (buy path): bump the first entry
with key `s`, or insert `(s, q)` when absent. -/
def hmAdd : Holdings → String → ℤ → Holdings
  | [], s, q => [(s, q)]
  | (k, v) :: rest, s, q =>
    if k = s then (k, v + q) :: rest else (k, v) :: hmAdd rest s q

/-- Rust `holdings.entry(s).or_insert(0)` alone (sell path, performed before the
sufficiency check): insert a `(s, 0)` entry when `s` is absent. -/
def hmEnsure : Holdings → String → Holdings
  | [], s => [(s, 0)]
  | (k, v) :: rest, s =>
    if k = s then (k, v) :: rest else (k, v) :: hmEnsure rest s

/-- Overwrite the value of the first entry with key `s` (no-op when absent). -/
def hmSet : Holdings → String → ℤ → Holdings
  | [], _, _ => []
  | (k, v) :: rest, s, q =>
    if k = s then (k, q) :: rest else (k, v) :: hmSet rest s q

/-- Rust `Portfolio::process_order` (settlement): `total_order_value =
execution_price * quantity.abs()`; buy branch guarded by
`cash >= total_order_value`, sell branch by
`*holdings.entry(symbol).or_insert(0) >= -quantity` (note the entry is
inserted before the check). -/
def process_order (p : Portfolio) (o : Order) (execution_price : ℚ) :
    Portfolio :=
  if 0 < o.quantity then
    if execution_price * (o.quantity.natAbs : ℚ) ≤ p.cash then
      { cash := p.cash - execution_price * (o.quantity.natAbs : ℚ),
        holdings := hmAdd p.holdings o.symbol o.quantity }
    else
      p
  else if o.quantity < 0 then
    if -o.quantity ≤ effQty (hmEnsure p.holdings o.symbol) o.symbol then
      { cash := p.cash + execution_price * (o.quantity.natAbs : ℚ),
        holdings := hmSet (hmEnsure p.holdings o.symbol) o.symbol
          (effQty (hmEnsure p.holdings o.symbol) o.symbol + o.quantity) }
    else
      { cash := p.cash, holdings := hmEnsure p.holdings o.symbol }
  else
    p

/-- Rust `Portfolio::execute_order`: a `Market` order settles at `market_price`;
a `Limit(limit_price)` order settles at `limit_price` iff
`(quantity > 0 && market_price <= limit_price) ||
 (quantity < 0 && market_price >= limit_price)`, else nothing happens. -/
def execute_order (p : Portfolio) (o : Order) (market_price : ℚ) :
    Portfolio :=
  match o.order_type with
  | OrderType.market => process_order p o market_price
  | OrderType.limit limit_price =>
    if (0 < o.quantity ∧ market_price ≤ limit_price) ∨
        (o.quantity < 0 ∧ market_price ≥ limit_price) then
      process_order p o limit_price
    else
      p

/-- The routing decision of `execute_order` (§4.1 of the spec): `some P` when
the order reaches settlement at price `P`, `none` when it is skipped. -/
def execution_decision (o : Order) (market_price : ℚ) : Option ℚ :=
  match o.order_type with
  | OrderType.market => some market_price
  | OrderType.limit limit_price =>
    if (0 < o.quantity ∧ market_price ≤ limit_price) ∨
        (o.quantity < 0 ∧ market_price ≥ limit_price) then
      some limit_price
    else
      none

/-- Rust `Portfolio::calculate_profit_loss`: fold over the snapshot's quote
entries, adding `price * quantity` whenever the quote's symbol is held, then
add cash and subtract `INITIAL_CASH`. -/
def calculate_profit_loss (p : Portfolio)
    (current_market_data : List MarketData) : ℚ :=
  (current_market_data.foldl
    (fun total_value data =>
      match hmLookup p.holdings data.symbol with
      | some quantity => total_value + data.price * (quantity : ℚ)
      | none => total_value) 0) + p.cash - INITIAL_CASH

/-- Rust `find_market_price`: first-match price lookup in the snapshot. -/
def find_market_price (market_data : List MarketData) (symbol : String) :
    Option ℚ :=
  (market_data.find? (fun data => data.symbol == symbol)).map
    (fun data => data.price)

/-- The contribution of one quote entry to the mark-to-market fold: the
quote's price times the held quantity of its symbol, 0 when not held. -/
def quote_value (h : Holdings) (d : MarketData) : ℚ :=
  match hmLookup h d.symbol with
  | some q => d.price * (q : ℚ)
  | none => 0

/-- Valuation as the SPEC's words describe it (§4.3): one term per held
symbol, priced by first-match lookup in the snapshot, absent prices
contributing zero. Used only to compare against `calculate_profit_loss`. -/
def spec_profit_loss (p : Portfolio) (market : List MarketData) : ℚ :=
  (p.holdings.foldl
    (fun acc e =>
      match find_market_price market e.1 with
      | some price => acc + price * (e.2 : ℚ)
      | none => acc) 0) + p.cash - INITIAL_CASH

/-- Run a sequence of `(order, market_price)` pairs through
`execute_order`, mutating the portfolio in order. -/
def run (p : Portfolio) : List (Order × ℚ) → Portfolio
  | [] => p
  | (o, mp) :: rest => run (execute_order p o mp) rest

/-- The account invariant of §3: non-negative cash and no negative stored
holding. -/
def PortfolioInvariant (p : Portfolio) : Prop :=
  0 ≤ p.cash ∧ ∀ e ∈ p.holdings, 0 ≤ e.2

/-- The order is rejected or a no-op for this portfolio and market price:
zero quantity, an unfavorable limit (no settlement reached), a buy with
insufficient cash, or a sell with insufficient holdings. -/
def rejected_or_noop (p : Portfolio) (o : Order) (market_price : ℚ) : Prop :=
  o.quantity = 0 ∨
  execution_decision o market_price = none ∨
  ∃ P, execution_decision o market_price = some P ∧
    ((0 < o.quantity ∧ p.cash < P * (o.quantity.natAbs : ℚ)) ∨
     (o.quantity < 0 ∧ effQty p.holdings o.symbol < -o.quantity))

/-! ### Lemmas about the holdings map -/

lemma hmLookup_cons (k : String) (v : ℤ) (rest : Holdings) (s : String) :
    hmLookup ((k, v) :: rest) s = if k = s then some v else hmLookup rest s :=
  rfl

lemma effQty_nil (s : String) : effQty [] s = 0 := rfl

lemma effQty_cons (k : String) (v : ℤ) (rest : Holdings) (s : String) :
    effQty ((k, v) :: rest) s = if k = s then v else effQty rest s := by
  simp only [effQty, hmLookup_cons]
  split <;> rfl

lemma hmLookup_hmEnsure (h : Holdings) (s t : String) :
    hmLookup (hmEnsure h s) t =
      if s = t then some (effQty h s) else hmLookup h t := by
  induction h with
  | nil =>
    by_cases hst : s = t <;>
      simp [hmEnsure, hmLookup_cons, effQty_nil, hmLookup, hst]
  | cons e rest ih =>
    obtain ⟨k, v⟩ := e
    simp only [hmEnsure]
    by_cases hk : k = s
    · subst hk
      simp only [if_pos rfl]
      by_cases hkt : k = t <;> simp [hmLookup_cons, effQty_cons, hkt]
    · simp only [if_neg hk, hmLookup_cons, effQty_cons, if_neg hk]
      by_cases hkt : k = t
      · have hst : ¬s = t := fun hst => hk (hkt.trans hst.symm)
        simp [hkt, hst]
      · simp [hkt, ih]

lemma effQty_hmEnsure (h : Holdings) (s t : String) :
    effQty (hmEnsure h s) t = effQty h t := by
  simp only [effQty, hmLookup_hmEnsure]
  split
  · next hst => subst hst; rfl
  · rfl

lemma hmLookup_hmEnsure_self (h : Holdings) (s : String) :
    hmLookup (hmEnsure h s) s = some (effQty h s) := by
  simp [hmLookup_hmEnsure]

lemma effQty_hmAdd_self (h : Holdings) (s : String) (q : ℤ) :
    effQty (hmAdd h s q) s = effQty h s + q := by
  induction h with
  | nil => simp [hmAdd, effQty_cons, effQty_nil]
  | cons e rest ih =>
    obtain ⟨k, v⟩ := e
    simp only [hmAdd]
    by_cases hk : k = s
    · simp [hk, effQty_cons]
    · simp [hk, effQty_cons, ih]

lemma effQty_hmAdd_ne (h : Holdings) (s t : String) (q : ℤ) (hts : t ≠ s) :
    effQty (hmAdd h s q) t = effQty h t := by
  induction h with
  | nil =>
    have hst : ¬s = t := fun hs => hts hs.symm
    simp [hmAdd, effQty_cons, effQty_nil, hst]
  | cons e rest ih =>
    obtain ⟨k, v⟩ := e
    simp only [hmAdd]
    by_cases hk : k = s
    · subst hk
      have hkt : ¬k = t := fun hkt => hts hkt.symm
      simp [effQty_cons, hkt]
    · simp [hk, effQty_cons, ih]

lemma effQty_hmSet_self (h : Holdings) (s : String) (v : ℤ)
    (hs : (hmLookup h s).isSome) :
    effQty (hmSet h s v) s = v := by
  induction h with
  | nil => simp [hmLookup] at hs
  | cons e rest ih =>
    obtain ⟨k, w⟩ := e
    simp only [hmSet]
    by_cases hk : k = s
    · simp [hk, effQty_cons]
    · simp only [hmLookup_cons, if_neg hk] at hs
      simp [hk, effQty_cons, ih hs]

lemma effQty_hmSet_ne (h : Holdings) (s t : String) (v : ℤ) (hts : t ≠ s) :
    effQty (hmSet h s v) t = effQty h t := by
  induction h with
  | nil => simp [hmSet]
  | cons e rest ih =>
    obtain ⟨k, w⟩ := e
    simp only [hmSet]
    by_cases hk : k = s
    · subst hk
      have hkt : ¬k = t := fun hkt => hts hkt.symm
      simp [effQty_cons, hkt]
    · simp [hk, effQty_cons, ih]

lemma effQty_nonneg (h : Holdings) (s : String)
    (hh : ∀ e ∈ h, 0 ≤ e.2) : 0 ≤ effQty h s := by
  induction h with
  | nil => simp [effQty_nil]
  | cons e rest ih =>
    obtain ⟨k, v⟩ := e
    rw [effQty_cons]
    split
    · exact hh (k, v) (List.mem_cons_self _ _)
    · exact ih fun e he => hh e (List.mem_cons_of_mem _ he)

lemma hmAdd_nonneg (h : Holdings) (s : String) (q : ℤ)
    (hh : ∀ e ∈ h, 0 ≤ e.2) (hq : 0 ≤ effQty h s + q) :
    ∀ e ∈ hmAdd h s q, 0 ≤ e.2 := by
  induction h with
  | nil =>
    rw [effQty_nil] at hq
    simp only [hmAdd]
    intro e he
    rw [List.mem_singleton] at he
    subst he
    simpa using hq
  | cons e rest ih =>
    obtain ⟨k, v⟩ := e
    simp only [hmAdd]
    by_cases hk : k = s
    · subst hk
      rw [effQty_cons, if_pos rfl] at hq
      rw [if_pos rfl]
      intro e he
      rcases List.mem_cons.mp he with rfl | hmem
      · simpa using hq
      · exact hh e (List.mem_cons_of_mem _ hmem)
    · rw [effQty_cons, if_neg hk] at hq
      simp only [if_neg hk]
      intro e he
      rcases List.mem_cons.mp he with rfl | hmem
      · exact hh (k, v) (List.mem_cons_self _ _)
      · exact ih (fun e he => hh e (List.mem_cons_of_mem _ he)) hq e hmem

lemma hmEnsure_nonneg (h : Holdings) (s : String)
    (hh : ∀ e ∈ h, 0 ≤ e.2) :
    ∀ e ∈ hmEnsure h s, 0 ≤ e.2 := by
  induction h with
  | nil =>
    simp only [hmEnsure]
    intro e he
    rw [List.mem_singleton] at he
    subst he
    simp
  | cons e rest ih =>
    obtain ⟨k, v⟩ := e
    simp only [hmEnsure]
    by_cases hk : k = s
    · simpa [hk] using hh
    · simp only [if_neg hk]
      intro e he
      rcases List.mem_cons.mp he with rfl | hmem
      · exact hh (k, v) (List.mem_cons_self _ _)
      · exact ih (fun e he => hh e (List.mem_cons_of_mem _ he)) e hmem

lemma hmSet_nonneg (h : Holdings) (s : String) (v : ℤ)
    (hh : ∀ e ∈ h, 0 ≤ e.2) (hv : 0 ≤ v) :
    ∀ e ∈ hmSet h s v, 0 ≤ e.2 := by
  induction h with
  | nil => simp [hmSet]
  | cons e rest ih =>
    obtain ⟨k, w⟩ := e
    simp only [hmSet]
    by_cases hk : k = s
    · simp only [if_pos hk]
      intro e he
      rcases List.mem_cons.mp he with rfl | hmem
      · simpa using hv
      · exact hh e (List.mem_cons_of_mem _ hmem)
    · simp only [if_neg hk]
      intro e he
      rcases List.mem_cons.mp he with rfl | hmem
      · exact hh (k, w) (List.mem_cons_self _ _)
      · exact ih (fun e he => hh e (List.mem_cons_of_mem _ he)) e hmem

/-! ### Characterization of settlement and routing -/

lemma process_order_zero (p : Portfolio) (o : Order) (P : ℚ)
    (hq : o.quantity = 0) : process_order p o P = p := by
  unfold process_order
  rw [if_neg (by omega), if_neg (by omega)]

lemma process_order_buy_accept (p : Portfolio) (o : Order) (P : ℚ)
    (hq : 0 < o.quantity) (hc : P * (o.quantity.natAbs : ℚ) ≤ p.cash) :
    process_order p o P =
      { cash := p.cash - P * (o.quantity.natAbs : ℚ),
        holdings := hmAdd p.holdings o.symbol o.quantity } := by
  unfold process_order
  rw [if_pos hq, if_pos hc]

lemma process_order_buy_reject (p : Portfolio) (o : Order) (P : ℚ)
    (hq : 0 < o.quantity) (hc : p.cash < P * (o.quantity.natAbs : ℚ)) :
    process_order p o P = p := by
  unfold process_order
  rw [if_pos hq, if_neg (not_le.mpr hc)]

lemma process_order_sell_accept (p : Portfolio) (o : Order) (P : ℚ)
    (hq : o.quantity < 0)
    (hh : -o.quantity ≤ effQty p.holdings o.symbol) :
    process_order p o P =
      { cash := p.cash + P * (o.quantity.natAbs : ℚ),
        holdings := hmSet (hmEnsure p.holdings o.symbol) o.symbol
          (effQty p.holdings o.symbol + o.quantity) } := by
  unfold process_order
  rw [if_neg (by omega), if_pos hq, effQty_hmEnsure,
    if_pos hh]

lemma process_order_sell_reject (p : Portfolio) (o : Order) (P : ℚ)
    (hq : o.quantity < 0)
    (hh : effQty p.holdings o.symbol < -o.quantity) :
    process_order p o P =
      { cash := p.cash, holdings := hmEnsure p.holdings o.symbol } := by
  unfold process_order
  rw [if_neg (by omega), if_pos hq, effQty_hmEnsure,
    if_neg (not_le.mpr hh)]

lemma execute_order_market (p : Portfolio) (o : Order) (mp : ℚ)
    (h : o.order_type = OrderType.market) :
    execute_order p o mp = process_order p o mp := by
  unfold execute_order
  rw [h]

lemma execution_decision_market (o : Order) (mp : ℚ)
    (h : o.order_type = OrderType.market) :
    execution_decision o mp = some mp := by
  unfold execution_decision
  rw [h]

lemma execute_order_limit_fav (p : Portfolio) (o : Order) (L mp : ℚ)
    (h : o.order_type = OrderType.limit L)
    (hfav : (0 < o.quantity ∧ mp ≤ L) ∨ (o.quantity < 0 ∧ mp ≥ L)) :
    execute_order p o mp = process_order p o L := by
  unfold execute_order
  rw [h]
  exact if_pos hfav

lemma execute_order_limit_unfav (p : Portfolio) (o : Order) (L mp : ℚ)
    (h : o.order_type = OrderType.limit L)
    (hunfav : ¬((0 < o.quantity ∧ mp ≤ L) ∨ (o.quantity < 0 ∧ mp ≥ L))) :
    execute_order p o mp = p := by
  unfold execute_order
  rw [h]
  exact if_neg hunfav

lemma execution_decision_limit (o : Order) (L mp : ℚ)
    (h : o.order_type = OrderType.limit L) :
    execution_decision o mp =
      if (0 < o.quantity ∧ mp ≤ L) ∨ (o.quantity < 0 ∧ mp ≥ L) then some L
      else none := by
  unfold execution_decision
  rw [h]

lemma execute_order_eq_decision (p : Portfolio) (o : Order) (mp : ℚ) :
    execute_order p o mp =
      match execution_decision o mp with
      | some P => process_order p o P
      | none => p := by
  cases ho : o.order_type with
  | market =>
    rw [execute_order_market p o mp ho, execution_decision_market o mp ho]
  | limit L =>
    rw [execution_decision_limit o L mp ho]
    by_cases hc : (0 < o.quantity ∧ mp ≤ L) ∨ (o.quantity < 0 ∧ mp ≥ L)
    · rw [if_pos hc, execute_order_limit_fav p o L mp ho hc]
    · rw [if_neg hc, execute_order_limit_unfav p o L mp ho hc]

/-! ### Valuation as a sum over quote entries -/

lemma foldl_quote_value (h : Holdings) (m : List MarketData) (a : ℚ) :
    m.foldl
      (fun total_value data =>
        match hmLookup h data.symbol with
        | some quantity => total_value + data.price * (quantity : ℚ)
        | none => total_value) a
      = a + (m.map (quote_value h)).sum := by
  induction m generalizing a with
  | nil => simp
  | cons d rest ih =>
    rw [List.foldl_cons, ih, List.map_cons, List.sum_cons, quote_value]
    cases hmLookup h d.symbol with
    | none => simp
    | some q =>
      simp only []
      ring

lemma calculate_profit_loss_eq (p : Portfolio) (m : List MarketData) :
    calculate_profit_loss p m =
      (m.map (quote_value p.holdings)).sum + p.cash - INITIAL_CASH := by
  unfold calculate_profit_loss
  rw [foldl_quote_value]
  ring

/-! ### Invariant preservation -/

lemma invariant_process_order (p : Portfolio) (o : Order) (P : ℚ)
    (hP : 0 ≤ P) (hp : PortfolioInvariant p) :
    PortfolioInvariant (process_order p o P) := by
  obtain ⟨hcash, hhold⟩ := hp
  rcases lt_trichotomy o.quantity 0 with hq | hq | hq
  · by_cases hh : -o.quantity ≤ effQty p.holdings o.symbol
    · rw [process_order_sell_accept p o P hq hh]
      refine ⟨?_, ?_⟩
      · have : 0 ≤ P * (o.quantity.natAbs : ℚ) :=
          mul_nonneg hP (by positivity)
        simpa using add_nonneg hcash this
      · exact hmSet_nonneg _ _ _ (hmEnsure_nonneg _ _ hhold) (by omega)
    · rw [process_order_sell_reject p o P hq (not_le.mp hh)]
      exact ⟨hcash, hmEnsure_nonneg _ _ hhold⟩
  · rw [process_order_zero p o P hq]
    exact ⟨hcash, hhold⟩
  · by_cases hc : P * (o.quantity.natAbs : ℚ) ≤ p.cash
    · rw [process_order_buy_accept p o P hq hc]
      refine ⟨by simpa using sub_nonneg.mpr hc, ?_⟩
      have h0 : 0 ≤ effQty p.holdings o.symbol :=
        effQty_nonneg _ _ hhold
      exact hmAdd_nonneg _ _ _ hhold (by omega)
    · rw [process_order_buy_reject p o P hq (not_le.mp hc)]
      exact ⟨hcash, hhold⟩

lemma invariant_execute_order (p : Portfolio) (o : Order) (mp : ℚ)
    (hmp : 0 ≤ mp)
    (hL : ∀ L, o.order_type = OrderType.limit L → 0 < L)
    (hp : PortfolioInvariant p) :
    PortfolioInvariant (execute_order p o mp) := by
  cases ho : o.order_type with
  | market =>
    rw [execute_order_market p o mp ho]
    exact invariant_process_order p o mp hmp hp
  | limit L =>
    by_cases hc : (0 < o.quantity ∧ mp ≤ L) ∨ (o.quantity < 0 ∧ mp ≥ L)
    · rw [execute_order_limit_fav p o L mp ho hc]
      exact invariant_process_order p o L (hL L ho).le hp
    · rw [execute_order_limit_unfav p o L mp ho hc]
      exact hp

lemma invariant_run (p : Portfolio) (orders : List (Order × ℚ))
    (hp : PortfolioInvariant p)
    (hok : ∀ x ∈ orders,
      0 ≤ x.2 ∧ ∀ L, x.1.order_type = OrderType.limit L → 0 < L) :
    PortfolioInvariant (run p orders) := by
  induction orders generalizing p with
  | nil => exact hp
  | cons x rest ih =>
    obtain ⟨o, mp⟩ := x
    obtain ⟨hmp, hL⟩ := hok (o, mp) (List.mem_cons_self _ _)
    exact ih (execute_order p o mp)
      (invariant_execute_order p o mp hmp hL hp)
      fun x hx => hok x (List.mem_cons_of_mem _ hx)

lemma execute_order_zero (p : Portfolio) (o : Order) (mp : ℚ)
    (hq : o.quantity = 0) : execute_order p o mp = p := by
  cases ho : o.order_type with
  | market =>
    rw [execute_order_market p o mp ho, process_order_zero p o mp hq]
  | limit L =>
    by_cases hc : (0 < o.quantity ∧ mp ≤ L) ∨ (o.quantity < 0 ∧ mp ≥ L)
    · rw [execute_order_limit_fav p o L mp ho hc,
        process_order_zero p o L hq]
    · exact execute_order_limit_unfav p o L mp ho hc

/-! ### The claims -/

/-- Claim C3: a `Limit(L)` order proceeds to settlement iff the limit is
favorable — a buy (`quantity > 0`) settles iff `market_price ≤ L`, a sell
(`quantity < 0`) settles iff `market_price ≥ L` — and when the condition
fails, `execute_order` performs no state mutation at all and reports no
error. -/
theorem C3_limit_favorability (p : Portfolio) (o : Order) (L mp : ℚ)
    (h : o.order_type = OrderType.limit L) :
    (0 < o.quantity → ((execution_decision o mp).isSome ↔ mp ≤ L)) ∧
    (o.quantity < 0 → ((execution_decision o mp).isSome ↔ mp ≥ L)) ∧
    (execution_decision o mp = none → execute_order p o mp = p) := by
  have hd := execution_decision_limit o L mp h
  refine ⟨?_, ?_, ?_⟩
  · intro hq
    rw [hd]
    by_cases hmp : mp ≤ L
    · rw [if_pos (Or.inl ⟨hq, hmp⟩)]
      simp [hmp]
    · have hcond :
          ¬((0 < o.quantity ∧ mp ≤ L) ∨ (o.quantity < 0 ∧ mp ≥ L)) := by
        rintro (⟨h1, h2⟩ | ⟨h1, h2⟩)
        · exact hmp h2
        · omega
      rw [if_neg hcond]
      simp [hmp]
  · intro hq
    rw [hd]
    by_cases hmp : mp ≥ L
    · rw [if_pos (Or.inr ⟨hq, hmp⟩)]
      simp [hmp]
    · have hcond :
          ¬((0 < o.quantity ∧ mp ≤ L) ∨ (o.quantity < 0 ∧ mp ≥ L)) := by
        rintro (⟨h1, h2⟩ | ⟨h1, h2⟩)
        · omega
        · exact hmp h2
      rw [if_neg hcond]
      simp [hmp]
  · intro hnone
    rw [execute_order_eq_decision, hnone]

/-- Witness for C3 at a concrete favorable limit buy. -/
theorem C3_limit_favorability_witness :
    (execution_decision ⟨"A", 1, OrderType.limit 10⟩ 5).isSome = true := by
  have h :=
    C3_limit_favorability ⟨10000, []⟩ ⟨"A", 1, OrderType.limit 10⟩ 10 5 rfl
  exact (h.1 (by norm_num)).mpr (by norm_num)

/-- Claim C4: a buy settlement (`quantity > 0`) at execution price `P` is
applied iff `cash ≥ P * |quantity|`; when applied, the held quantity of the
order's symbol (absent counting as 0) grows by exactly `quantity`, cash
shrinks by exactly `P * |quantity|`, other symbols are untouched; when not
applied the portfolio is exactly unchanged (all-or-nothing). -/
theorem C4_buy_settlement (p : Portfolio) (o : Order) (P : ℚ)
    (hq : 0 < o.quantity) :
    (P * (o.quantity.natAbs : ℚ) ≤ p.cash →
      (process_order p o P).cash = p.cash - P * (o.quantity.natAbs : ℚ) ∧
      effQty (process_order p o P).holdings o.symbol
        = effQty p.holdings o.symbol + o.quantity ∧
      ∀ s, s ≠ o.symbol →
        effQty (process_order p o P).holdings s = effQty p.holdings s) ∧
    (p.cash < P * (o.quantity.natAbs : ℚ) → process_order p o P = p) := by
  constructor
  · intro hc
    rw [process_order_buy_accept p o P hq hc]
    exact ⟨rfl, effQty_hmAdd_self _ _ _,
      fun s hs => effQty_hmAdd_ne _ _ _ _ hs⟩
  · intro hc
    exact process_order_buy_reject p o P hq hc

/-- Witness for C4 at a concrete affordable buy. -/
theorem C4_buy_settlement_witness :
    (process_order ⟨10000, []⟩ ⟨"A", 2, OrderType.market⟩ 3).cash
        = 10000 - 3 * (((2 : ℤ).natAbs : ℚ)) ∧
    effQty (process_order ⟨10000, []⟩ ⟨"A", 2, OrderType.market⟩ 3).holdings
        "A" = effQty ([] : Holdings) "A" + 2 := by
  have h := C4_buy_settlement ⟨10000, []⟩ ⟨"A", 2, OrderType.market⟩ 3
    (by norm_num)
  have h2 := h.1 (by norm_num)
  exact ⟨h2.1, h2.2.1⟩

/-- Claim C5: a sell settlement (`quantity < 0`) at execution price `P` is
applied iff the current holding of the order's symbol (absent counting as 0)
is at least `-quantity`; when applied, the held quantity changes by exactly
`quantity` and cash grows by exactly `P * |quantity|`; when not applied,
cash and every effective held quantity are unchanged (all-or-nothing). -/
theorem C5_sell_settlement (p : Portfolio) (o : Order) (P : ℚ)
    (hq : o.quantity < 0) :
    (-o.quantity ≤ effQty p.holdings o.symbol →
      (process_order p o P).cash = p.cash + P * (o.quantity.natAbs : ℚ) ∧
      effQty (process_order p o P).holdings o.symbol
        = effQty p.holdings o.symbol + o.quantity ∧
      ∀ s, s ≠ o.symbol →
        effQty (process_order p o P).holdings s = effQty p.holdings s) ∧
    (effQty p.holdings o.symbol < -o.quantity →
      (process_order p o P).cash = p.cash ∧
      ∀ s, effQty (process_order p o P).holdings s = effQty p.holdings s) := by
  constructor
  · intro hh
    rw [process_order_sell_accept p o P hq hh]
    refine ⟨rfl, ?_, ?_⟩
    · show effQty (hmSet (hmEnsure p.holdings o.symbol) o.symbol
        (effQty p.holdings o.symbol + o.quantity)) o.symbol = _
      rw [effQty_hmSet_self]
      rw [hmLookup_hmEnsure_self]
      rfl
    · intro s hs
      show effQty (hmSet (hmEnsure p.holdings o.symbol) o.symbol
        (effQty p.holdings o.symbol + o.quantity)) s = _
      rw [effQty_hmSet_ne _ _ _ _ hs, effQty_hmEnsure]
  · intro hh
    rw [process_order_sell_reject p o P hq hh]
    exact ⟨rfl, fun s => effQty_hmEnsure _ _ _⟩

/-- Witness for C5 at a concrete covered sell. -/
theorem C5_sell_settlement_witness :
    (process_order ⟨100, [("A", 5)]⟩ ⟨"A", -2, OrderType.market⟩ 3).cash
        = 100 + 3 * ((((-2 : ℤ)).natAbs : ℚ)) ∧
    effQty (process_order ⟨100, [("A", 5)]⟩
        ⟨"A", -2, OrderType.market⟩ 3).holdings "A"
      = effQty [("A", (5 : ℤ))] "A" + (-2) := by
  have h := C5_sell_settlement ⟨100, [("A", 5)]⟩ ⟨"A", -2, OrderType.market⟩
    3 (by norm_num)
  have h2 := h.1 (by decide)
  exact ⟨h2.1, h2.2.1⟩

/-- Claim C6: a `Market` order always reaches settlement, at the given
market price; in particular an accepted market buy changes cash by exactly
`market_price * |quantity|`. -/
theorem C6_market_always_executes (p : Portfolio) (o : Order) (mp : ℚ)
    (h : o.order_type = OrderType.market) :
    execution_decision o mp = some mp ∧
    execute_order p o mp = process_order p o mp ∧
    (0 < o.quantity → mp * (o.quantity.natAbs : ℚ) ≤ p.cash →
      (execute_order p o mp).cash
        = p.cash - mp * (o.quantity.natAbs : ℚ)) := by
  refine ⟨execution_decision_market o mp h,
    execute_order_market p o mp h, ?_⟩
  intro hq hc
  rw [execute_order_market p o mp h, process_order_buy_accept p o mp hq hc]

/-- Witness for C6 at a concrete market buy. -/
theorem C6_market_always_executes_witness :
    execution_decision ⟨"A", 1, OrderType.market⟩ 7 = some 7 ∧
    execute_order ⟨10, []⟩ ⟨"A", 1, OrderType.market⟩ 7
      = process_order ⟨10, []⟩ ⟨"A", 1, OrderType.market⟩ 7 := by
  have h := C6_market_always_executes ⟨10, []⟩ ⟨"A", 1, OrderType.market⟩ 7
    rfl
  exact ⟨h.1, h.2.1⟩

/-- Claim C8: an order with `quantity = 0`, of either kind, leaves the
portfolio identical to before — valid but inert, not an error. -/
theorem C8_zero_quantity_noop (p : Portfolio) (o : Order) (mp : ℚ)
    (hq : o.quantity = 0) :
    execute_order p o mp = p :=
  execute_order_zero p o mp hq

/-- Witness for C8 at concrete zero-quantity orders of both kinds. -/
theorem C8_zero_quantity_noop_witness :
    execute_order ⟨5, []⟩ ⟨"A", 0, OrderType.market⟩ 3
        = (⟨5, []⟩ : Portfolio) ∧
    execute_order ⟨5, [("B", 1)]⟩ ⟨"B", 0, OrderType.limit 2⟩ 3
        = (⟨5, [("B", 1)]⟩ : Portfolio) :=
  ⟨C8_zero_quantity_noop ⟨5, []⟩ ⟨"A", 0, OrderType.market⟩ 3 rfl,
   C8_zero_quantity_noop ⟨5, [("B", 1)]⟩ ⟨"B", 0, OrderType.limit 2⟩ 3 rfl⟩

/-- Claim C9: a favorable `Limit(L)` order settles at the limit price `L`,
not at the market price: an accepted limit buy changes cash by exactly
`L * |quantity|` and an accepted limit sell by exactly `L * |quantity|`,
even when the market price differs from `L`. -/
theorem C9_limit_settles_at_limit_price (p : Portfolio) (o : Order)
    (L mp : ℚ) (h : o.order_type = OrderType.limit L)
    (hfav : (0 < o.quantity ∧ mp ≤ L) ∨ (o.quantity < 0 ∧ mp ≥ L)) :
    execute_order p o mp = process_order p o L ∧
    (0 < o.quantity → L * (o.quantity.natAbs : ℚ) ≤ p.cash →
      (execute_order p o mp).cash
        = p.cash - L * (o.quantity.natAbs : ℚ)) ∧
    (o.quantity < 0 → -o.quantity ≤ effQty p.holdings o.symbol →
      (execute_order p o mp).cash
        = p.cash + L * (o.quantity.natAbs : ℚ)) := by
  refine ⟨execute_order_limit_fav p o L mp h hfav, ?_, ?_⟩
  · intro hq hc
    rw [execute_order_limit_fav p o L mp h hfav,
      process_order_buy_accept p o L hq hc]
  · intro hq hh
    rw [execute_order_limit_fav p o L mp h hfav,
      process_order_sell_accept p o L hq hh]

/-- Witness for C9: a limit sell at floor 10 with market price 12 credits
the limit price 10, not the market price. -/
theorem C9_limit_settles_at_limit_price_witness :
    (execute_order ⟨0, [("A", 1)]⟩ ⟨"A", -1, OrderType.limit 10⟩ 12).cash
      = 0 + 10 * ((((-1 : ℤ)).natAbs : ℚ)) := by
  have h := C9_limit_settles_at_limit_price ⟨0, [("A", 1)]⟩
    ⟨"A", -1, OrderType.limit 10⟩ 10 12 rfl
    (Or.inr ⟨by norm_num, by norm_num⟩)
  exact h.2.2 (by norm_num) (by decide)

/-- Claim C1 counterexample: a rejected sell on an absent symbol does NOT
leave the holdings map unchanged — `entry(symbol).or_insert(0)` runs before
the sufficiency check, so a new zero-quantity entry appears. -/
theorem C1_counterexample :
    rejected_or_noop ⟨10000, []⟩ ⟨"AAPL", -1, OrderType.market⟩ 1 ∧
    (execute_order ⟨10000, []⟩ ⟨"AAPL", -1, OrderType.market⟩ 1).holdings
      = [("AAPL", 0)] ∧
    ([("AAPL", (0 : ℤ))] : Holdings) ≠ ([] : Holdings) := by
  refine ⟨Or.inr (Or.inr ⟨1, rfl, Or.inr ⟨by norm_num, by decide⟩⟩),
    by decide, by decide⟩

/-- Claim C1 as amended: a rejected or no-op order leaves the cash balance
and every symbol's effective held quantity (absent counting as 0) exactly
unchanged; the holdings map itself is unchanged except that a rejected sell
may insert a zero-quantity entry for the order's symbol
(`hmEnsure`). -/
theorem C1_rejected_state_preserved (p : Portfolio) (o : Order) (mp : ℚ)
    (h : rejected_or_noop p o mp) :
    (execute_order p o mp).cash = p.cash ∧
    (∀ s, effQty (execute_order p o mp).holdings s = effQty p.holdings s) ∧
    ((execute_order p o mp).holdings = p.holdings ∨
      (execute_order p o mp).holdings = hmEnsure p.holdings o.symbol) := by
  rcases h with hq | hnone | ⟨P, hP, hrej⟩
  · rw [execute_order_zero p o mp hq]
    exact ⟨rfl, fun s => rfl, Or.inl rfl⟩
  · rw [execute_order_eq_decision, hnone]
    exact ⟨rfl, fun s => rfl, Or.inl rfl⟩
  · simp only [execute_order_eq_decision, hP]
    rcases hrej with ⟨hq, hc⟩ | ⟨hq, hh⟩
    · rw [process_order_buy_reject p o P hq hc]
      exact ⟨rfl, fun s => rfl, Or.inl rfl⟩
    · rw [process_order_sell_reject p o P hq hh]
      exact ⟨rfl, fun s => effQty_hmEnsure _ _ _, Or.inr rfl⟩

/-- Witness for the amended C1 at a concrete insufficient-cash buy. -/
theorem C1_rejected_state_preserved_witness :
    (execute_order ⟨1, []⟩ ⟨"A", 1, OrderType.market⟩ 5).cash = 1 ∧
    effQty (execute_order ⟨1, []⟩ ⟨"A", 1, OrderType.market⟩ 5).holdings "A"
      = effQty ([] : Holdings) "A" := by
  have h := C1_rejected_state_preserved ⟨1, []⟩ ⟨"A", 1, OrderType.market⟩ 5
    (Or.inr (Or.inr ⟨5, rfl, Or.inl ⟨by norm_num, by norm_num⟩⟩))
  exact ⟨h.1, h.2.1 "A"⟩

/-- Claim C2 counterexample: with two quotes for the same held symbol the
code counts the holding once per quote, so `calculate_profit_loss` differs
from the spec's per-held-symbol sum (`spec_profit_loss`, one term per held
symbol at the first-match price). -/
theorem C2_counterexample :
    calculate_profit_loss ⟨10000, [("A", 1)]⟩ [⟨"A", 2⟩, ⟨"A", 3⟩] = 5 ∧
    spec_profit_loss ⟨10000, [("A", 1)]⟩ [⟨"A", 2⟩, ⟨"A", 3⟩] = 2 ∧
    calculate_profit_loss ⟨10000, [("A", 1)]⟩ [⟨"A", 2⟩, ⟨"A", 3⟩]
      ≠ spec_profit_loss ⟨10000, [("A", 1)]⟩ [⟨"A", 2⟩, ⟨"A", 3⟩] := by
  have h1 : calculate_profit_loss ⟨10000, [("A", 1)]⟩
      [⟨"A", 2⟩, ⟨"A", 3⟩] = 5 := by
    norm_num [calculate_profit_loss, hmLookup, INITIAL_CASH]
  have h2 : spec_profit_loss ⟨10000, [("A", 1)]⟩
      [⟨"A", 2⟩, ⟨"A", 3⟩] = 2 := by
    norm_num [spec_profit_loss, find_market_price, INITIAL_CASH]
  refine ⟨h1, h2, ?_⟩
  rw [h1, h2]
  norm_num

/-- Claim C2 as amended: `calculate_profit_loss` returns the sum over the
snapshot's quote entries of (quote price × held quantity of that quote's
symbol, 0 when the symbol is not held), plus cash, minus the initial cash
endowment; so a held symbol with no quote contributes zero, and a held
symbol contributes one term per quote entry bearing its symbol. -/
theorem C2_per_quote_valuation (p : Portfolio) (m : List MarketData) :
    calculate_profit_loss p m =
      (m.map (quote_value p.holdings)).sum + p.cash - INITIAL_CASH :=
  calculate_profit_loss_eq p m

/-- Claim C7: starting from a positive cash endowment and empty holdings,
any sequence of `execute_order` calls with non-negative market prices and
positive limit prices keeps cash non-negative and every stored holding
quantity non-negative. -/
theorem C7_nonnegativity_invariant (c0 : ℚ) (hc : 0 < c0)
    (orders : List (Order × ℚ))
    (hok : ∀ x ∈ orders,
      0 ≤ x.2 ∧ ∀ L, x.1.order_type = OrderType.limit L → 0 < L) :
    PortfolioInvariant (run ⟨c0, []⟩ orders) :=
  invariant_run ⟨c0, []⟩ orders ⟨hc.le, by simp⟩ hok

/-- Witness for C7 on the reference scenario of §8 of the spec. -/
theorem C7_nonnegativity_invariant_witness :
    PortfolioInvariant (run ⟨10000, []⟩
      [(⟨"AAPL", 1, OrderType.market⟩, 150),
       (⟨"MSFT", 2, OrderType.limit 280⟩, 280),
       (⟨"AAPL", -1, OrderType.limit 280⟩, 150)]) := by
  apply C7_nonnegativity_invariant 10000 (by norm_num)
  intro x hx
  simp only [List.mem_cons, List.not_mem_nil, or_false] at hx
  rcases hx with rfl | rfl | rfl
  · exact ⟨by norm_num, fun L hL => OrderType.noConfusion hL⟩
  · refine ⟨by norm_num, fun L hL => ?_⟩
    injection hL with hL280
    rw [← hL280]
    norm_num
  · refine ⟨by norm_num, fun L hL => ?_⟩
    injection hL with hL280
    rw [← hL280]
    norm_num

/-- Claim C10: `calculate_profit_loss` iterates over the snapshot's quote
entries, so `k` duplicate quotes for a held symbol make the holding
contribute `k` times, once per quote at that quote's price. -/
theorem C10_duplicate_quotes_count (c : ℚ) (h : Holdings) (s : String)
    (q : ℤ) (pr : ℚ) (k : ℕ) (rest : List MarketData)
    (hheld : hmLookup h s = some q) :
    calculate_profit_loss ⟨c, h⟩ (rest ++ List.replicate k ⟨s, pr⟩) =
      calculate_profit_loss ⟨c, h⟩ rest + (k : ℚ) * (pr * (q : ℚ)) := by
  rw [calculate_profit_loss_eq, calculate_profit_loss_eq, List.map_append,
    List.sum_append, List.map_replicate]
  have hq : quote_value h ⟨s, pr⟩ = pr * (q : ℚ) := by
    simp [quote_value, hheld]
  rw [hq, List.sum_replicate, nsmul_eq_mul]
  ring

/-- Witness for C10: three duplicate quotes at price 5 for a held quantity
of 2 contribute 3 × (5 × 2). -/
theorem C10_duplicate_quotes_count_witness :
    calculate_profit_loss ⟨10000, [("A", 2)]⟩
        ([] ++ List.replicate 3 ⟨"A", 5⟩) =
      calculate_profit_loss ⟨10000, [("A", 2)]⟩ []
        + ((3 : ℕ) : ℚ) * (5 * ((2 : ℤ) : ℚ)) :=
  C10_duplicate_quotes_count 10000 [("A", 2)] "A" 2 5 3 [] (by decide)

end StockSim
